import Mathlib

/-!
Shallow embedding of the DevTodo command-line task manager
(src/devtodo.py) and verification of its specification claims.

Strings from the Python program are modelled as lists of characters
(List Char).  The regular-expression fragment used by the program
(patterns of the shape marker-char followed by word characters, with
optional trailing whitespace) is modelled by explicit left-to-right
scanners that mirror the semantics of re.findall, re.search and re.sub
for exactly those patterns.
-/

namespace Devtodo

/-- Whitespace in the sense of the regex class backslash-s and of
str.split / str.strip (ASCII fragment). -/
def isSpaceB (c : Char) : Bool :=
  c == ' ' || c == '\t' || c == '\n' || c == '\x0d' || c == '\x0b' || c == '\x0c'

/-- Word characters in the sense of the regex class backslash-w
(ASCII fragment: letters, digits, underscore). -/
def wordCharB (c : Char) : Bool :=
  c.isAlphanum || c == '_'

/-- Fuel-indexed model of re.findall applied to the pattern
m(backslash-w+): scan from the left; at an occurrence of the marker
followed by at least one word character, record the maximal
word-character run and continue after it; otherwise advance one
character.  The fuel only forces structural recursion; it is never
exhausted when at least the length of the list. -/
def findToksF (m : Char) : Nat → List Char → List (List Char)
  | _, [] => []
  | 0, _ :: _ => []
  | fuel + 1, c :: cs =>
    if c = m then
      let w := cs.takeWhile wordCharB
      if w = [] then findToksF m fuel cs
      else w :: findToksF m fuel (cs.dropWhile wordCharB)
    else findToksF m fuel cs

/-- Model of re.findall for the pattern m(backslash-w+). -/
def findToks (m : Char) (s : List Char) : List (List Char) :=
  findToksF m s.length s

/-- Fuel-indexed model of re.sub with empty replacement applied to the
pattern m(backslash-w+)(backslash-s*): each non-overlapping match
(marker, maximal word run, maximal whitespace run) is removed; unmatched
characters are kept. -/
def stripToksF (m : Char) : Nat → List Char → List Char
  | _, [] => []
  | 0, c :: cs => c :: cs
  | fuel + 1, c :: cs =>
    if c = m ∧ cs.takeWhile wordCharB ≠ [] then
      stripToksF m fuel ((cs.dropWhile wordCharB).dropWhile isSpaceB)
    else c :: stripToksF m fuel cs

/-- Model of re.sub with empty replacement for the pattern
m(backslash-w+)(backslash-s*). -/
def stripToks (m : Char) (s : List Char) : List Char :=
  stripToksF m s.length s

/-- Model of re.search for the pattern m(backslash-w+): the captured group of
the first match, if any. -/
def searchTok (m : Char) : List Char → Option (List Char)
  | [] => none
  | c :: cs =>
    if c = m ∧ cs.takeWhile wordCharB ≠ [] then some (cs.takeWhile wordCharB)
    else searchTok m cs

/-- Fuel-indexed model of str.split with no separator: the maximal
whitespace-free words, in order. -/
def splitWsF : Nat → List Char → List (List Char)
  | _, [] => []
  | 0, _ :: _ => []
  | fuel + 1, c :: cs =>
    if isSpaceB c then splitWsF fuel cs
    else (c :: cs.takeWhile (fun x => !isSpaceB x)) ::
      splitWsF fuel (cs.dropWhile (fun x => !isSpaceB x))

/-- Model of str.split with no separator. -/
def splitWs (s : List Char) : List (List Char) :=
  splitWsF s.length s

/-- Join a list of words with single spaces (model of " ".join). -/
def joinSp : List (List Char) → List Char
  | [] => []
  | [w] => w
  | w :: ws => w ++ ' ' :: joinSp ws

/-- Model of the Python idiom " ".join(s.split()): collapse whitespace runs
to single spaces and trim the ends. -/
def normalizeWs (s : List Char) : List Char :=
  joinSp (splitWs s)

/-- Model of str.strip (remove leading and trailing whitespace). -/
def pyStrip (s : List Char) : List Char :=
  ((s.dropWhile isSpaceB).reverse.dropWhile isSpaceB).reverse

/-- Lowercase a token (model of str.lower on the ASCII tokens involved). -/
def lowerTok (s : List Char) : List Char :=
  s.map Char.toLower

/-- The PRIORITIES table of the program: name to level. -/
def PRIORITIES : List (List Char × Nat) :=
  [("low".data, 1), ("normal".data, 2), ("high".data, 3), ("urgent".data, 4)]

/-- Model of PRIORITIES.get(tok): lookup of a (lowercased) token. -/
def priorityLookup (tok : List Char) : Option Nat :=
  PRIORITIES.lookup tok

/-- Messages printed by the program that the claims inspect, modelled
abstractly (constructor arguments carry the data interpolated into the
corresponding f-string). -/
inductive Msg where
  | warnUnknownPriority (tok : List Char)
  | errEmptyDesc (original : List Char)
  | errInvalidIndex (n : Nat)
  | errReadFile
  | infoAlreadyDone (i : Int)
  | infoAlreadyPending (i : Int)
  | infoNoChanges (i : Int)
  | okAdded (desc : List Char)
  | okCompleted (i : Int) (desc : List Char)
  | okReopened (i : Int) (desc : List Char)
  | okRemoved (desc : List Char) (wasDone : Bool)
  | okUpdated (i : Int) (changes : Nat)
  | infoNoneToClear
  | okCleared (n : Nat)
  | renderLine (idx : Nat) (desc : List Char)
  | infoNoTasks
  | infoNoMatch
  | statsNoTasks
  | statsReport (total done pending : Nat)
  | statsPrioLine (level count : Nat)
  | statsTagLine (tag : List Char) (count : Nat)
deriving DecidableEq, Repr

/-- Result of parse_tags_and_priority: cleaned description (none on the
empty-description error), tags, priority, and the messages printed. -/
structure ParseOut where
  desc : Option (List Char)
  tags : List (List Char)
  priority : Nat
  msgs : List Msg
deriving DecidableEq, Repr

/-- Embedding of parse_tags_and_priority (src/devtodo.py lines 61-88):
extract all #word tags, strip them, find the first @word token of the
remainder to determine the priority (warning on an unknown token), strip
all @word tokens when one was found, collapse whitespace, and fail when
the result is empty. -/
def parse_tags_and_priority (d : List Char) : ParseOut :=
  let tags := findToks '#' d
  let d1 := pyStrip (stripToks '#' d)
  match searchTok '@' d1 with
  | some tok =>
    let tokL := lowerTok tok
    let pw : Nat × List Msg :=
      match priorityLookup tokL with
      | some p => (p, [])
      | none => (2, [Msg.warnUnknownPriority tokL])
    let d2 := pyStrip (stripToks '@' d1)
    let d3 := normalizeWs d2
    if d3 = [] then ⟨none, [], pw.1, pw.2 ++ [Msg.errEmptyDesc d]⟩
    else ⟨some d3, tags, pw.1, pw.2⟩
  | none =>
    let d3 := normalizeWs d1
    if d3 = [] then ⟨none, [], 2, [Msg.errEmptyDesc d]⟩
    else ⟨some d3, tags, 2, []⟩

/-- A stored task: the five fields of the persisted JSON records as
created by add_task (all fields present). -/
structure Task where
  desc : List Char
  done : Bool
  priority : Nat
  tags : List (List Char)
  created : List Char
deriving DecidableEq, Repr, Inhabited

/-- Embedding of add_task (lines 90-114).  The in-memory store stands for
the persisted file contents; the returned store is the file contents
after the operation, the Bool records whether save_tasks was invoked. -/
def add_task (desc : List Char) (priority : Option (List Char))
    (tags : Option (List (List Char))) (now : List Char)
    (store : List Task) : List Task × Bool × List Msg :=
  let pr := parse_tags_and_priority desc
  match pr.desc with
  | none => (store, false, pr.msgs)
  | some cleanDesc =>
    let final_priority :=
      match priority with
      | some p => (priorityLookup (lowerTok p)).getD pr.priority
      | none => pr.priority
    let final_tags :=
      match tags with
      | some ts => if ts = [] then pr.tags else ts
      | none => pr.tags
    let task : Task := ⟨cleanDesc, false, final_priority, final_tags, now⟩
    (store ++ [task], true, pr.msgs ++ [Msg.okAdded cleanDesc])

/-- Embedding of mark_done (lines 210-223). -/
def mark_done (index : Int) (store : List Task) : List Task × Bool × List Msg :=
  if 1 ≤ index ∧ index ≤ (store.length : Int) then
    let i := (index - 1).toNat
    let t := store.getD i default
    if t.done then (store, false, [Msg.infoAlreadyDone index])
    else (store.set i { t with done := true }, true, [Msg.okCompleted index t.desc])
  else (store, false, [Msg.errInvalidIndex store.length])

/-- Embedding of mark_undone (lines 225-238). -/
def mark_undone (index : Int) (store : List Task) : List Task × Bool × List Msg :=
  if 1 ≤ index ∧ index ≤ (store.length : Int) then
    let i := (index - 1).toNat
    let t := store.getD i default
    if t.done then (store.set i { t with done := false }, true, [Msg.okReopened index t.desc])
    else (store, false, [Msg.infoAlreadyPending index])
  else (store, false, [Msg.errInvalidIndex store.length])

/-- Embedding of delete_task (lines 240-250). -/
def delete_task (index : Int) (store : List Task) : List Task × Bool × List Msg :=
  if 1 ≤ index ∧ index ≤ (store.length : Int) then
    let i := (index - 1).toNat
    let removed := store.getD i default
    (store.eraseIdx i, true, [Msg.okRemoved removed.desc removed.done])
  else (store, false, [Msg.errInvalidIndex store.length])

/-- The description block of update_task (lines 261-282): parse the new
description; on failure signal abort; otherwise replace the description
(always recorded as a change), and apply the parsed inline priority and
tags as implicit changes when no explicit priority / tags were given and
they differ from the current values.  A task paired with its change
count is threaded through, msgs are the parser's output. -/
def upd_desc_step (prioGiven : Bool) (tags : Option (List (List Char)))
    (t0 : Task) (dval : List Char) : Option (Task × Nat) × List Msg :=
  if dval ≠ [] then
    let pr := parse_tags_and_priority dval
    match pr.desc with
    | none => (none, pr.msgs)
    | some nd =>
      let t1 : Task := { t0 with desc := nd }
      let (t2, c2) : Task × Nat :=
        if ¬ prioGiven ∧ pr.priority ≠ t0.priority then
          (({ t1 with priority := pr.priority } : Task), 2)
        else (t1, 1)
      let (t3, c3) : Task × Nat :=
        if tags = none ∧ pr.tags ≠ t0.tags then
          (({ t2 with tags := pr.tags } : Task), c2 + 1)
        else (t2, c2)
      (some (t3, c3), pr.msgs)
  else (some (t0, 0), [])

/-- The explicit-priority block of update_task (lines 284-289): when a
priority flag was given and names a known level different from the
current one, apply it and record a change. -/
def upd_prio_step (prioGiven : Bool) (pval : List Char) : Task × Nat → Task × Nat
  | (t, c) =>
    if prioGiven then
      match priorityLookup (lowerTok pval) with
      | some lvl =>
        if lvl ≠ t.priority then (({ t with priority := lvl } : Task), c + 1) else (t, c)
      | none => (t, c)
    else (t, c)

/-- The explicit-tags block of update_task (lines 291-297): when a tag
list was given (tags is not None, including the empty list) and differs
from the current tags, replace them and record a change. -/
def upd_tags_step (tags : Option (List (List Char))) : Task × Nat → Task × Nat
  | (t, c) =>
    match tags with
    | some l => if l ≠ t.tags then (({ t with tags := l } : Task), c + 1) else (t, c)
    | none => (t, c)

/-- Embedding of update_task (lines 252-307).  An absent or empty
description / priority string behaves as not given (Python truthiness of
the argparse values); an explicit tag list, including the empty one,
passes the tags-is-not-None test.  Each applied change increments the
change counter exactly as the Python code appends to its changes list;
without changes nothing is saved. -/
def update_task (index : Int) (desc : Option (List Char))
    (priority : Option (List Char)) (tags : Option (List (List Char)))
    (store : List Task) : List Task × Bool × List Msg :=
  if 1 ≤ index ∧ index ≤ (store.length : Int) then
    let i := (index - 1).toNat
    let t0 := store.getD i default
    let dval := match desc with | some d => d | none => []
    let prioGiven : Bool := match priority with | some p => !p.isEmpty | none => false
    let pval := match priority with | some p => p | none => []
    match upd_desc_step prioGiven tags t0 dval with
    | (none, m) => (store, false, m)
    | (some tc, m3) =>
      let (t5, c5) := upd_tags_step tags (upd_prio_step prioGiven pval tc)
      if c5 = 0 then (store, false, m3 ++ [Msg.infoNoChanges index])
      else (store.set i t5, true, m3 ++ [Msg.okUpdated index c5])
  else (store, false, [Msg.errInvalidIndex store.length])

/-- Lexicographic strict comparison of character lists (model of the <
comparison Python performs on the stored created strings). -/
def lexLt : List Char → List Char → Bool
  | [], [] => false
  | [], _ :: _ => true
  | _ :: _, [] => false
  | a :: as, b :: bs => if a < b then true else if b < a then false else lexLt as bs

/-- Insert into a sorted list, before the first element x is le-related
to (stable insertion). -/
def insertLe (le : α → α → Bool) (x : α) : List α → List α
  | [] => [x]
  | y :: ys => if le x y then x :: y :: ys else y :: insertLe le x ys

/-- Stable insertion sort; models the stability of Python list.sort. -/
def isort (le : α → α → Bool) : List α → List α
  | [] => []
  | x :: xs => insertLe le x (isort le xs)

/-- Sort relation for list.sort(key=lambda x: (-priority, created)):
descending priority, ties by ascending created string, stable. -/
def prioLe (a b : Task) : Bool :=
  Nat.blt b.priority a.priority ||
    (b.priority == a.priority && !(lexLt b.created a.created))

/-- Sort relation for list.sort(key=created, reverse=True): descending
created string, stable. -/
def createdLe (a b : Task) : Bool :=
  !(lexLt a.created b.created)

/-- Embedding of list_tasks (lines 141-208) as the sequence of rendered
task lines (original-index, description), ignoring the purely decorative
header and group-header lines.  Python aliasing is modelled explicitly:
filtered_tasks starts as the same object as tasks and each filter
comprehension replaces it with a copy; list.sort mutates in place, so
when no copy was made the subsequent tasks.index lookups run against the
sorted list.  tasks.index(t) returns the position of the first element
equal to t. -/
def list_tasks (filter_tags : Option (List (List Char)))
    (filter_priority : Option (List Char)) (sort_by : List Char)
    (show_done : Bool) (tasks : List Task) : List Msg :=
  if tasks = [] then [Msg.infoNoTasks]
  else
    let f1 := if show_done then tasks else tasks.filter (fun t => !t.done)
    let alias1 := show_done
    let ftActive : Bool := match filter_tags with | some l => !l.isEmpty | none => false
    let ftList := match filter_tags with | some l => l | none => []
    let f2 :=
      if ftActive then
        f1.filter (fun t => ftList.any (fun ftag => (t.tags.map lowerTok).contains (lowerTok ftag)))
      else f1
    let alias2 := alias1 && !ftActive
    let fpVal := match filter_priority with | some p => p | none => []
    let fpActive : Bool := match filter_priority with | some p => !p.isEmpty | none => false
    let fpLevel := if fpActive then priorityLookup (lowerTok fpVal) else none
    let f3 := match fpLevel with
      | some lvl => f2.filter (fun t => t.priority == lvl)
      | none => f2
    let alias3 := alias2 && !fpLevel.isSome
    let sorts : Bool := sort_by = "priority".data || sort_by = "created".data
    let sorted :=
      if sort_by = "priority".data then isort prioLe f3
      else if sort_by = "created".data then isort createdLe f3
      else f3
    let tasksAfter := if alias3 && sorts then sorted else tasks
    if sorted = [] then [Msg.infoNoMatch]
    else sorted.map (fun t => Msg.renderLine (tasksAfter.findIdx (fun u => u == t) + 1) t.desc)

/-- Increment the count of a key in an association list, appending it at
the end on first encounter (model of dict insertion order). -/
def bumpCount (k : List Char) : List (List Char × Nat) → List (List Char × Nat)
  | [] => [(k, 1)]
  | (k2, n) :: rest => if k2 = k then (k2, n + 1) :: rest else (k2, n) :: bumpCount k rest

/-- Embedding of show_stats (lines 327-387) as the reported figures:
counts, pending-by-priority breakdown in fixed urgent-to-low order, and
the five most frequent tags among pending tasks (stable by first
encounter).  Stats reads the store and never saves. -/
def show_stats (tasks : List Task) : List Msg :=
  if tasks = [] then [Msg.statsNoTasks]
  else
    let total := tasks.length
    let doneCt := (tasks.filter (fun t => t.done)).length
    let pending := total - doneCt
    let pendingTasks := tasks.filter (fun t => !t.done)
    let prioLines :=
      if pending > 0 then
        ([4, 3, 2, 1] : List Nat).filterMap (fun lvl =>
          let c := (pendingTasks.filter (fun t => t.priority == lvl)).length
          if c > 0 then some (Msg.statsPrioLine lvl c) else none)
      else []
    let tallies := pendingTasks.foldl (fun acc t => t.tags.foldl (fun a tg => bumpCount tg a) acc) []
    let byCount := (isort (fun a b => !(Nat.blt a.2 b.2)) tallies).take 5
    let tagLines := byCount.map (fun p => Msg.statsTagLine p.1 p.2)
    Msg.statsReport total doneCt pending :: prioLines ++ tagLines

/-- Embedding of clear_done (lines 309-325). -/
def clear_done (store : List Task) : List Task × Bool × List Msg :=
  let doneTasks := store.filter (fun t => t.done)
  let newTasks := store.filter (fun t => !t.done)
  if doneTasks = [] then (store, false, [Msg.infoNoneToClear])
  else (newTasks, true, [Msg.okCleared doneTasks.length])

/-- JSON values, as produced by json.load.  Object keys are unique after
decoding; insertion order is preserved. -/
inductive Json where
  | null
  | bool (b : Bool)
  | num (n : Int)
  | str (s : List Char)
  | arr (elems : List Json)
  | obj (fields : List (List Char × Json))
deriving Repr

/-- Substring test (model of the Python expression pat in s on strings). -/
def isInfixB (pat : List Char) : List Char → Bool
  | [] => pat.isEmpty
  | c :: cs => pat.isPrefixOf (c :: cs) || isInfixB pat cs

/-- Key-presence test on a decoded object (model of key in dict). -/
def hasKey (k : List Char) (kvs : List (List Char × Json)) : Bool :=
  kvs.any (fun p => p.1 == k)

/-- Field access on a decoded object. -/
def lookupKey (k : List Char) (kvs : List (List Char × Json)) : Option Json :=
  (kvs.find? (fun p => p.1 == k)).map (fun p => p.2)

/-- Membership of the string k in a decoded array (model of k in list:
equality of a str against each element, false for non-strings). -/
def jsonHasStr (k : List Char) (xs : List Json) : Bool :=
  xs.any (fun j => match j with | .str s => s == k | _ => false)

/-- The back-fill migration of load_tasks (lines 40-46) on one decoded
object: missing priority becomes 2, missing tags becomes [], missing
created becomes the current timestamp; assignments append in that
order. -/
def backfillFields (now : List Char) (kvs : List (List Char × Json)) :
    List (List Char × Json) :=
  let k1 := if hasKey "priority".data kvs then kvs else kvs ++ [("priority".data, Json.num 2)]
  let k2 := if hasKey "tags".data k1 then k1 else k1 ++ [("tags".data, Json.arr [])]
  if hasKey "created".data k2 then k2 else k2 ++ [("created".data, Json.str now)]

/-- The migration loop body of load_tasks on one iterated element.  For a
decoded object it back-fills; for any other Python value the membership
test or the item assignment raises a TypeError, which the except clause
(JSONDecodeError, KeyError) does not catch.  A string escapes the
assignment only when it contains all three key names as substrings; a
list only when it contains all three key names as elements. -/
def migrateElem (now : List Char) : Json → Except (List Char) Json
  | .obj kvs => .ok (.obj (backfillFields now kvs))
  | .str s =>
    if !(isInfixB "priority".data s) then .error "TypeError".data
    else if !(isInfixB "tags".data s) then .error "TypeError".data
    else if !(isInfixB "created".data s) then .error "TypeError".data
    else .ok (.str s)
  | .arr xs =>
    if !(jsonHasStr "priority".data xs) then .error "TypeError".data
    else if !(jsonHasStr "tags".data xs) then .error "TypeError".data
    else if !(jsonHasStr "created".data xs) then .error "TypeError".data
    else .ok (.arr xs)
  | _ => .error "TypeError".data

/-- The migration loop of load_tasks over the whole decoded value: a
decoded array iterates its elements; a decoded dict iterates its keys
(plain strings, so the first key missing a substring raises); a string
iterates its one-character substrings (any non-empty string raises);
anything else is not iterable and raises at the for statement. -/
def migrateTop (now : List Char) : Json → Except (List Char) Json
  | .arr xs => (xs.mapM (migrateElem now)).map Json.arr
  | .obj kvs =>
    if kvs.all (fun p => isInfixB "priority".data p.1 && isInfixB "tags".data p.1 &&
        isInfixB "created".data p.1)
    then .ok (.obj kvs) else .error "TypeError".data
  | .str s => if s.isEmpty then .ok (.str s) else .error "TypeError".data
  | _ => .error "TypeError".data

/-- Embedding of load_tasks (lines 33-51).  The file argument is none
when the file is absent, some none when its content is not well-formed
JSON (json.load raises JSONDecodeError, which is caught and reported),
and some (some j) when it decodes to the value j.  The result is either
the in-memory task value or the uncaught exception that escapes. -/
def load_tasks (file : Option (Option Json)) (now : List Char) :
    List Msg × Except (List Char) Json :=
  match file with
  | none => ([], .ok (.arr []))
  | some none => ([Msg.errReadFile], .ok (.arr []))
  | some (some j) => ([], migrateTop now j)

/-- The command surface dispatched by main (lines 472-549). -/
inductive Cmd where
  | add (desc : List Char) (priority : Option (List Char)) (tags : Option (List (List Char)))
  | ls (ftags : Option (List (List Char))) (fprio : Option (List Char))
      (sortBy : List Char) (showDone : Bool)
  | update (index : Int) (desc : Option (List Char)) (priority : Option (List Char))
      (tags : Option (List (List Char)))
  | done (index : Int)
  | undone (index : Int)
  | rm (index : Int)
  | clear
  | stats

/-- One command execution over the persisted store: the store each
operation begins by loading, the store left in the file afterwards, a
flag recording whether save_tasks was invoked, and the printed output.
list_tasks and show_stats contain no save_tasks call, so their branches
return the store unchanged. -/
def runCommand (c : Cmd) (now : List Char) (store : List Task) :
    List Task × Bool × List Msg :=
  match c with
  | .add d p t => add_task d p t now store
  | .ls ft fp sb sd => (store, false, list_tasks ft fp sb sd store)
  | .update i d p t => update_task i d p t store
  | .done i => mark_done i store
  | .undone i => mark_undone i store
  | .rm i => delete_task i store
  | .clear => clear_done store
  | .stats => (store, false, show_stats store)

/-- Modelled from claim C3's words: remove exactly the first matched
token (marker plus word run) and nothing else. -/
def stripFirstTok (m : Char) : List Char → List Char
  | [] => []
  | c :: cs =>
    if c = m ∧ cs.takeWhile wordCharB ≠ [] then cs.dropWhile wordCharB
    else c :: stripFirstTok m cs

/-- Modelled from claim C3's words, for comparison with the code: the
parser as the claim describes it, in which exactly the matched priority
token is stripped from the description. -/
def parseClaimC3 (d : List Char) : ParseOut :=
  let tags := findToks '#' d
  let d1 := pyStrip (stripToks '#' d)
  match searchTok '@' d1 with
  | some tok =>
    let tokL := lowerTok tok
    let pw : Nat × List Msg :=
      match priorityLookup tokL with
      | some p => (p, [])
      | none => (2, [Msg.warnUnknownPriority tokL])
    let d2 := pyStrip (stripFirstTok '@' d1)
    let d3 := normalizeWs d2
    if d3 = [] then ⟨none, [], pw.1, pw.2 ++ [Msg.errEmptyDesc d]⟩
    else ⟨some d3, tags, pw.1, pw.2⟩
  | none =>
    let d3 := normalizeWs d1
    if d3 = [] then ⟨none, [], 2, [Msg.errEmptyDesc d]⟩
    else ⟨some d3, tags, 2, []⟩

/-- Written from the amended claim C3: the first @word token of the
tag-stripped description decides the priority (with a warning when it is
not a known level name); when such a token exists, every @word token
(each with its trailing whitespace) is stripped, not only the matched
one; without such a token the priority is 2 with no warning. -/
def parseAmendedC3 (d : List Char) : ParseOut :=
  let tags := findToks '#' d
  let afterTags := pyStrip (stripToks '#' d)
  match searchTok '@' afterTags with
  | some tok =>
    let tokL := lowerTok tok
    let prio := (priorityLookup tokL).getD 2
    let warns := if (priorityLookup tokL).isSome then [] else [Msg.warnUnknownPriority tokL]
    let cleaned := normalizeWs (pyStrip (stripToks '@' afterTags))
    if cleaned = [] then ⟨none, [], prio, warns ++ [Msg.errEmptyDesc d]⟩
    else ⟨some cleaned, tags, prio, warns⟩
  | none =>
    let cleaned := normalizeWs afterTags
    if cleaned = [] then ⟨none, [], 2, [Msg.errEmptyDesc d]⟩
    else ⟨some cleaned, tags, 2, []⟩

/-- A description that is neither empty nor whitespace-only. -/
def nonBlankB (s : List Char) : Bool :=
  s.any (fun c => !isSpaceB c)

/-- A tag containing no hash character. -/
def noHashB (s : List Char) : Bool :=
  s.all (fun c => !(c == '#'))

/-- The claim C1 invariant on one stored task. -/
def validTaskB (t : Task) : Bool :=
  nonBlankB t.desc && decide (1 ≤ t.priority) && decide (t.priority ≤ 4) &&
    t.tags.all noHashB

/-- The claim C1 invariant on the whole store. -/
def storeAllValidB (l : List Task) : Bool :=
  l.all validTaskB

/-- No marker-plus-word-characters token occurs in the string. -/
def noTokB (m : Char) (s : List Char) : Bool :=
  (searchTok m s).isNone

/-- Whether a decoded JSON value is an object. -/
def isObjB : Json → Bool
  | .obj _ => true
  | _ => false

/-- A decoded JSON value that is a hash-free string. -/
def jsonStrNoHash : Json → Bool
  | .str s => noHashB s
  | _ => false

/-- The desc field of a record satisfies the invariant (present,
a string, non-blank). -/
def fieldOkDesc : Option Json → Bool
  | some (.str s) => nonBlankB s
  | _ => false

/-- The priority field of a record, when present, satisfies the
invariant. -/
def fieldOkPriority : Option Json → Bool
  | none => true
  | some (.num n) => decide (1 ≤ n) && decide (n ≤ 4)
  | some _ => false

/-- The tags field of a record, when present, satisfies the invariant. -/
def fieldOkTags : Option Json → Bool
  | none => true
  | some (.arr xs) => xs.all jsonStrNoHash
  | some _ => false

/-- A loaded record whose present fields already satisfy the claim C1
invariant. -/
def recWherePresentOkB (kvs : List (List Char × Json)) : Bool :=
  fieldOkDesc (lookupKey "desc".data kvs) &&
    fieldOkPriority (lookupKey "priority".data kvs) &&
    fieldOkTags (lookupKey "tags".data kvs)

/-- The claim C1 invariant on a migrated record: desc, priority and tags
all present and valid. -/
def recValidB (kvs : List (List Char × Json)) : Bool :=
  fieldOkDesc (lookupKey "desc".data kvs) &&
    ((lookupKey "priority".data kvs).isSome &&
      fieldOkPriority (lookupKey "priority".data kvs)) &&
    ((lookupKey "tags".data kvs).isSome &&
      fieldOkTags (lookupKey "tags".data kvs))

/-- The element migration restricted to objects (what migrateElem does on
an array whose elements are all objects). -/
def migrateObj (now : List Char) : Json → Json
  | .obj kvs => .obj (backfillFields now kvs)
  | j => j

/-- Every tag of an explicitly supplied tag option is hash-free (trivial
when absent). -/
def optTagsOkB : Option (List (List Char)) → Bool
  | some l => l.all noHashB
  | none => true

theorem set_getD_self (l : List α) (n : Nat) (d : α) (h : n < l.length) :
    l.set n (l.getD n d) = l := by
  induction l generalizing n with
  | nil => simp at h
  | cons a l ih =>
    cases n with
    | zero => simp [List.getD_eq_getElem?_getD]
    | succ n =>
      have h2 : n < l.length := by simpa using h
      have e : (a :: l).getD (n + 1) d = l.getD n d := by
        simp [List.getD_eq_getElem?_getD]
      rw [e]
      show a :: l.set n (l.getD n d) = a :: l
      rw [ih n h2]

theorem getD_set_self (l : List α) (n : Nat) (d x : α) (h : n < l.length) :
    (l.set n x).getD n d = x := by
  simp [List.getD_eq_getElem?_getD, List.getElem?_set_self h]

theorem errEmptyDesc_mem_of_fail (d : List Char)
    (h : (parse_tags_and_priority d).desc = none) :
    Msg.errEmptyDesc d ∈ (parse_tags_and_priority d).msgs := by
  unfold parse_tags_and_priority at h ⊢
  cases hS : searchTok '@' (pyStrip (stripToks '#' d)) <;>
    simp only [hS] at h ⊢ <;> split at h <;> simp_all

/-- C7: every index outside 1..N makes mark_done, mark_undone,
delete_task and update_task report the valid range 1..N and leave the
store untouched, with no save. -/
theorem C7_invalid_index_no_mutation (i : Int) (store : List Task)
    (d : Option (List Char)) (p : Option (List Char)) (ts : Option (List (List Char)))
    (h : ¬ (1 ≤ i ∧ i ≤ (store.length : Int))) :
    mark_done i store = (store, false, [Msg.errInvalidIndex store.length]) ∧
    mark_undone i store = (store, false, [Msg.errInvalidIndex store.length]) ∧
    delete_task i store = (store, false, [Msg.errInvalidIndex store.length]) ∧
    update_task i d p ts store = (store, false, [Msg.errInvalidIndex store.length]) := by
  refine ⟨?_, ?_, ?_, ?_⟩ <;>
    simp only [mark_done, mark_undone, delete_task, update_task, if_neg h]

/-- C7 witness: the theorem applied at index 5 of a one-task store. -/
theorem C7_witness :
    mark_done 5 [⟨"a".data, false, 2, [], []⟩] =
      ([⟨"a".data, false, 2, [], []⟩], false, [Msg.errInvalidIndex 1]) ∧
    mark_undone 5 [⟨"a".data, false, 2, [], []⟩] =
      ([⟨"a".data, false, 2, [], []⟩], false, [Msg.errInvalidIndex 1]) ∧
    delete_task 5 [⟨"a".data, false, 2, [], []⟩] =
      ([⟨"a".data, false, 2, [], []⟩], false, [Msg.errInvalidIndex 1]) ∧
    update_task 5 none none none [⟨"a".data, false, 2, [], []⟩] =
      ([⟨"a".data, false, 2, [], []⟩], false, [Msg.errInvalidIndex 1]) :=
  C7_invalid_index_no_mutation 5 [⟨"a".data, false, 2, [], []⟩] none none none (by decide)

/-- C10: listing and statistics are read-only; the persisted store is
returned unchanged and save_tasks is never invoked. -/
theorem C10_list_stats_readonly (ft : Option (List (List Char)))
    (fp : Option (List Char)) (sb : List Char) (sd : Bool)
    (now : List Char) (store : List Task) :
    (runCommand (Cmd.ls ft fp sb sd) now store).1 = store ∧
    (runCommand (Cmd.ls ft fp sb sd) now store).2.1 = false ∧
    (runCommand Cmd.stats now store).1 = store ∧
    (runCommand Cmd.stats now store).2.1 = false :=
  ⟨rfl, rfl, rfl, rfl⟩

set_option maxHeartbeats 1000000 in
/-- C5: the displayed index is the position of the first equal task, not
the task's own original position.  With two identical tasks both lines
show index 1 (the claim requires 1 and 2); and with the done flag shown
and no filters the list aliases the loaded store, so the in-place sort
makes the indices positions in the sorted order (B first at 1, A at 2)
instead of the original order (A=1, B=2). -/
theorem C5_displayed_index_bug :
    list_tasks none none ("priority".data) false
      [⟨"a".data, false, 1, [], "t".data⟩, ⟨"a".data, false, 1, [], "t".data⟩] =
      [Msg.renderLine 1 ("a".data), Msg.renderLine 1 ("a".data)] ∧
    list_tasks none none ("priority".data) true
      [⟨"A".data, false, 1, [], "t".data⟩, ⟨"B".data, false, 3, [], "t".data⟩] =
      [Msg.renderLine 1 ("B".data), Msg.renderLine 2 ("A".data)] :=
  ⟨rfl, rfl⟩

set_option maxHeartbeats 1000000 in
/-- C3 counterexample: on "a @low @high" the code strips every @word
token, leaving "a", while the claim (only the matched token "@low" is
stripped) would leave "a @high". -/
theorem C3_counterexample :
    (parse_tags_and_priority ("a @low @high".data)).desc = some ("a".data) ∧
    (parseClaimC3 ("a @low @high".data)).desc = some ("a @high".data) :=
  ⟨rfl, rfl⟩

/-- C3 amended: the parser behaves exactly as the claim describes except
that, once a first @word token exists, all @word tokens are stripped. -/
theorem C3_first_token_priority_strip_all (d : List Char) :
    parse_tags_and_priority d = parseAmendedC3 d := by
  simp only [parse_tags_and_priority, parseAmendedC3]
  cases hS : searchTok '@' (pyStrip (stripToks '#' d)) with
  | none => rfl
  | some tok => cases h : priorityLookup (lowerTok tok) <;> simp [h]

set_option maxHeartbeats 1000000 in
/-- C4 counterexample: with an explicitly supplied empty tag sequence the
parsed inline tags are used anyway (Python truthiness), so the stored
task carries tag x although the claim requires no tags. -/
theorem C4_counterexample :
    (add_task ("a #x".data) none (some []) ("t".data) []).1 =
      [⟨"a".data, false, 2, ["x".data], "t".data⟩] := rfl

/-- C4 amended: an explicit tag sequence wins over parsed inline tags
only when it is non-empty; an empty explicit sequence behaves exactly
like an absent one. -/
theorem C4_explicit_tags_win_when_nonempty (d : List Char)
    (p : Option (List Char)) (now : List Char) (store : List Task)
    (ts : List (List Char)) (h : ts ≠ []) :
    add_task d p (some []) now store = add_task d p none now store ∧
    ((add_task d p (some ts) now store).1 = store ∨
      ((add_task d p (some ts) now store).1.getLast?).map Task.tags = some ts) := by
  constructor
  · simp only [add_task]
    cases (parse_tags_and_priority d).desc <;> simp
  · simp only [add_task]
    cases (parse_tags_and_priority d).desc with
    | none => exact Or.inl rfl
    | some c => right; simp [h]

/-- C4 witness: the theorem applied to raw text "a" with explicit tags
[w] over the empty store. -/
theorem C4_witness :
    add_task ("a".data) none (some []) ("t".data) [] =
      add_task ("a".data) none none ("t".data) [] ∧
    ((add_task ("a".data) none (some ["w".data]) ("t".data) []).1 = [] ∨
      ((add_task ("a".data) none (some ["w".data]) ("t".data) []).1.getLast?).map Task.tags =
        some ["w".data]) :=
  C4_explicit_tags_win_when_nonempty ("a".data) none ("t".data) [] ["w".data] (by decide)

set_option maxHeartbeats 1000000 in
/-- C6 counterexample: parsing the empty description fails, yet update
with an empty description argument and an explicit priority mutates the
task and saves, because Python truthiness treats the empty string as an
absent description and never parses it. -/
theorem C6_counterexample :
    (parse_tags_and_priority ([] : List Char)).desc = none ∧
    (update_task 1 (some []) (some ("high".data)) none
        [⟨"a".data, false, 2, [], []⟩]).1 = [⟨"a".data, false, 3, [], []⟩] ∧
    (update_task 1 (some []) (some ("high".data)) none
        [⟨"a".data, false, 2, [], []⟩]).2.1 = true :=
  ⟨rfl, rfl, rfl⟩

/-- C6 amended: when the parser fails on the given description, add
fails for any description over any store, and update fails for a
non-empty description at any valid index (the only case in which update
parses at all); both report the empty-description error with the
original input, leave the store unchanged, and do not save. -/
theorem C6_parse_failure_no_mutation (d : List Char) (p : Option (List Char))
    (ts : Option (List (List Char))) (now : List Char) (store : List Task) (i : Int)
    (hfail : (parse_tags_and_priority d).desc = none) :
    (add_task d p ts now store).1 = store ∧
    (add_task d p ts now store).2.1 = false ∧
    Msg.errEmptyDesc d ∈ (add_task d p ts now store).2.2 ∧
    (d ≠ [] → 1 ≤ i → i ≤ (store.length : Int) →
      (update_task i (some d) p ts store).1 = store ∧
      (update_task i (some d) p ts store).2.1 = false ∧
      Msg.errEmptyDesc d ∈ (update_task i (some d) p ts store).2.2) := by
  have hmem := errEmptyDesc_mem_of_fail d hfail
  refine ⟨?_, ?_, ?_, ?_⟩
  · simp only [add_task, hfail]
  · simp only [add_task, hfail]
  · simp only [add_task, hfail]
    exact hmem
  · intro hd h1 h2
    have hidx : 1 ≤ i ∧ i ≤ (store.length : Int) := ⟨h1, h2⟩
    have hstep : ∀ (pg : Bool) (t0 : Task),
        upd_desc_step pg ts t0 d = (none, (parse_tags_and_priority d).msgs) := by
      intro pg t0
      simp only [upd_desc_step, if_pos hd, hfail]
    unfold update_task
    simp only [if_pos hidx, hstep]
    exact ⟨trivial, trivial, hmem⟩

set_option maxHeartbeats 1000000 in
/-- C6 witness: the theorem applied to the whitespace-and-tag-only input
of the spec scenario, once over the empty store (the add conjuncts) and
once at index 1 of a one-task store (the update conjuncts). -/
theorem C6_witness :
    (add_task ("   #tag   ".data) none none ("t".data) []).1 = [] ∧
    (add_task ("   #tag   ".data) none none ("t".data) []).2.1 = false ∧
    Msg.errEmptyDesc ("   #tag   ".data) ∈
      (add_task ("   #tag   ".data) none none ("t".data) []).2.2 ∧
    (update_task 1 (some ("   #tag   ".data)) none none [⟨"a".data, false, 2, [], []⟩]).1 =
      [⟨"a".data, false, 2, [], []⟩] ∧
    (update_task 1 (some ("   #tag   ".data)) none none [⟨"a".data, false, 2, [], []⟩]).2.1 = false ∧
    Msg.errEmptyDesc ("   #tag   ".data) ∈
      (update_task 1 (some ("   #tag   ".data)) none none [⟨"a".data, false, 2, [], []⟩]).2.2 := by
  have ha := C6_parse_failure_no_mutation ("   #tag   ".data) none none ("t".data) [] 1 rfl
  have hb := C6_parse_failure_no_mutation ("   #tag   ".data) none none ("t".data)
    [⟨"a".data, false, 2, [], []⟩] 1 rfl
  have hu := hb.2.2.2 (by decide) (by decide) (by decide)
  exact ⟨ha.1, ha.2.1, ha.2.2.1, hu.1, hu.2.1, hu.2.2⟩

set_option maxHeartbeats 1000000 in
/-- C2 counterexample: on a task that is already done, markDone is a
no-op and markUndone then flips done to false, so the original done
value true is not restored. -/
theorem C2_counterexample :
    (mark_undone 1 (mark_done 1 [⟨"a".data, true, 2, [], []⟩]).1).1 =
      [⟨"a".data, false, 2, [], []⟩] := rfl

theorem mark_done_store_eq (i : Int) (store : List Task)
    (h : 1 ≤ i ∧ i ≤ (store.length : Int)) :
    (mark_done i store).1 =
      store.set (i - 1).toNat
        { store.getD (i - 1).toNat default with done := true } := by
  have hlt : (i - 1).toNat < store.length := by omega
  simp only [mark_done, if_pos h]
  cases hdone : (store.getD (i - 1).toNat default).done with
  | true =>
    simp only [hdone, if_true]
    have e : ({ store.getD (i - 1).toNat default with done := true } : Task) =
        store.getD (i - 1).toNat default := by
      cases he : store.getD (i - 1).toNat default
      simp_all
    rw [e, set_getD_self _ _ _ hlt]
  | false => simp [hdone]

theorem mark_undone_store_eq (i : Int) (store : List Task)
    (h : 1 ≤ i ∧ i ≤ (store.length : Int)) :
    (mark_undone i store).1 =
      store.set (i - 1).toNat
        { store.getD (i - 1).toNat default with done := false } := by
  have hlt : (i - 1).toNat < store.length := by omega
  simp only [mark_undone, if_pos h]
  cases hdone : (store.getD (i - 1).toNat default).done with
  | false =>
    simp only [hdone, Bool.false_eq_true, if_false]
    have e : ({ store.getD (i - 1).toNat default with done := false } : Task) =
        store.getD (i - 1).toNat default := by
      cases he : store.getD (i - 1).toNat default
      simp_all
    rw [e, set_getD_self _ _ _ hlt]
  | true => simp [hdone]

/-- C2 amended: for every valid index, markDone then markUndone leaves
the task with done = false and markUndone then markDone leaves it with
done = true, in both cases changing no other field and no other task;
the original done value is restored exactly when it already equalled the
final value (false for the first order, true for the second). -/
theorem C2_done_undone_composition (store : List Task) (i : Int)
    (h1 : 1 ≤ i) (h2 : i ≤ (store.length : Int)) :
    (mark_undone i (mark_done i store).1).1 =
      store.set (i - 1).toNat
        { store.getD (i - 1).toNat default with done := false } ∧
    (mark_done i (mark_undone i store).1).1 =
      store.set (i - 1).toNat
        { store.getD (i - 1).toNat default with done := true } ∧
    ((store.getD (i - 1).toNat default).done = false →
      (mark_undone i (mark_done i store).1).1 = store) ∧
    ((store.getD (i - 1).toNat default).done = true →
      (mark_done i (mark_undone i store).1).1 = store) := by
  have hlt : (i - 1).toNat < store.length := by omega
  have hcond : 1 ≤ i ∧ i ≤ (store.length : Int) := ⟨h1, h2⟩
  have key1 : (mark_undone i (mark_done i store).1).1 =
      store.set (i - 1).toNat
        { store.getD (i - 1).toNat default with done := false } := by
    rw [mark_done_store_eq i store hcond]
    have hc2 : 1 ≤ i ∧ i ≤ ((store.set (i - 1).toNat
        { store.getD (i - 1).toNat default with done := true }).length : Int) := by
      simpa using hcond
    rw [mark_undone_store_eq i _ hc2,
      getD_set_self store ((i - 1).toNat) default _ hlt, List.set_set]
  have key2 : (mark_done i (mark_undone i store).1).1 =
      store.set (i - 1).toNat
        { store.getD (i - 1).toNat default with done := true } := by
    rw [mark_undone_store_eq i store hcond]
    have hc2 : 1 ≤ i ∧ i ≤ ((store.set (i - 1).toNat
        { store.getD (i - 1).toNat default with done := false }).length : Int) := by
      simpa using hcond
    rw [mark_done_store_eq i _ hc2,
      getD_set_self store ((i - 1).toNat) default _ hlt, List.set_set]
  refine ⟨key1, key2, ?_, ?_⟩
  · intro hdone
    rw [key1]
    have : { store.getD (i - 1).toNat default with done := false } =
        store.getD (i - 1).toNat default := by
      cases h : store.getD (i - 1).toNat default
      simp_all
    rw [this, set_getD_self _ _ _ hlt]
  · intro hdone
    rw [key2]
    have : { store.getD (i - 1).toNat default with done := true } =
        store.getD (i - 1).toNat default := by
      cases h : store.getD (i - 1).toNat default
      simp_all
    rw [this, set_getD_self _ _ _ hlt]

/-- C2 witness: the theorem applied at index 1 of a one-task pending
store. -/
theorem C2_witness :
    (mark_undone 1 (mark_done 1 [⟨"a".data, false, 2, [], []⟩]).1).1 =
      ([⟨"a".data, false, 2, [], []⟩] : List Task).set ((1 : Int) - 1).toNat
        { ([⟨"a".data, false, 2, [], []⟩] : List Task).getD ((1 : Int) - 1).toNat default with done := false } ∧
    (mark_done 1 (mark_undone 1 [⟨"a".data, false, 2, [], []⟩]).1).1 =
      ([⟨"a".data, false, 2, [], []⟩] : List Task).set ((1 : Int) - 1).toNat
        { ([⟨"a".data, false, 2, [], []⟩] : List Task).getD ((1 : Int) - 1).toNat default with done := true } ∧
    ((([⟨"a".data, false, 2, [], []⟩] : List Task).getD ((1 : Int) - 1).toNat default).done = false →
      (mark_undone 1 (mark_done 1 [⟨"a".data, false, 2, [], []⟩]).1).1 =
        [⟨"a".data, false, 2, [], []⟩]) ∧
    ((([⟨"a".data, false, 2, [], []⟩] : List Task).getD ((1 : Int) - 1).toNat default).done = true →
      (mark_done 1 (mark_undone 1 [⟨"a".data, false, 2, [], []⟩]).1).1 =
        [⟨"a".data, false, 2, [], []⟩]) :=
  C2_done_undone_composition [⟨"a".data, false, 2, [], []⟩] 1 (by decide) (by decide)

theorem hasKey_append (k : List Char) (l1 l2 : List (List Char × Json)) :
    hasKey k (l1 ++ l2) = (hasKey k l1 || hasKey k l2) := by
  simp [hasKey, List.any_append]

theorem lookupKey_append (k : List Char) (l1 l2 : List (List Char × Json)) :
    lookupKey k (l1 ++ l2) = (lookupKey k l1).or (lookupKey k l2) := by
  simp only [lookupKey, List.find?_append]
  cases List.find? (fun p => p.1 == k) l1 <;> simp

theorem hasKey_iff_lookupKey (k : List Char) (kvs : List (List Char × Json)) :
    hasKey k kvs = (lookupKey k kvs).isSome := by
  induction kvs with
  | nil => rfl
  | cons a rest ih =>
    simp only [hasKey, lookupKey, List.any_cons, List.find?] at *
    cases h : a.1 == k <;> simp [h, ih, hasKey, lookupKey]

theorem lookupKey_single (k k2 : List Char) (v : Json) :
    lookupKey k [(k2, v)] = if k2 == k then some v else none := by
  simp only [lookupKey, List.find?]
  cases h : k2 == k <;> simp [h]

theorem lookupKey_append_ne (k k2 : List Char) (v : Json)
    (l : List (List Char × Json)) (h : (k2 == k) = false) :
    lookupKey k (l ++ [(k2, v)]) = lookupKey k l := by
  rw [lookupKey_append, lookupKey_single, h]
  cases lookupKey k l <;> simp

theorem lookupKey_append_self (k : List Char) (v : Json)
    (l : List (List Char × Json)) (h : hasKey k l = false) :
    lookupKey k (l ++ [(k, v)]) = some v := by
  rw [hasKey_iff_lookupKey] at h
  have hnone : lookupKey k l = none := by
    cases hl : lookupKey k l
    · rfl
    · rw [hl] at h; simp at h
  rw [lookupKey_append, lookupKey_single, hnone]
  simp

theorem hasKey_append_ne (k k2 : List Char) (v : Json)
    (l : List (List Char × Json)) (h : (k2 == k) = false) :
    hasKey k (l ++ [(k2, v)]) = hasKey k l := by
  rw [hasKey_append]
  simp [hasKey, h]

theorem bool_eq_false_of_not {b : Bool} (h : ¬ (b = true)) : b = false := by
  cases b
  · rfl
  · exact absurd rfl h

theorem lookupKey_none_of_hasKey_false (k : List Char)
    (l : List (List Char × Json)) (h : hasKey k l = false) :
    lookupKey k l = none := by
  rw [hasKey_iff_lookupKey] at h
  cases hl : lookupKey k l
  · rfl
  · rw [hl] at h; simp at h

theorem lookupKey_some_of_hasKey (k : List Char)
    (l : List (List Char × Json)) (h : hasKey k l = true) :
    lookupKey k l = some ((lookupKey k l).getD Json.null) := by
  rw [hasKey_iff_lookupKey] at h
  cases hl : lookupKey k l
  · rw [hl] at h; simp at h
  · simp

theorem lookupKey_exists_of_hasKey {k : List Char}
    {l : List (List Char × Json)} (h : hasKey k l = true) :
    ∃ v, lookupKey k l = some v := by
  rw [hasKey_iff_lookupKey] at h
  exact Option.isSome_iff_exists.mp h

theorem backfill_lookup_priority (now : List Char) (kvs : List (List Char × Json)) :
    lookupKey ("priority".data) (backfillFields now kvs) =
      some ((lookupKey ("priority".data) kvs).getD (Json.num 2)) := by
  have e1 : (("tags".data : List Char) == "priority".data) = false := by decide
  have e2 : (("created".data : List Char) == "priority".data) = false := by decide
  have keep2 : ∀ l : List (List Char × Json),
      lookupKey ("priority".data) (if hasKey ("tags".data) l = true then l
        else l ++ [("tags".data, Json.arr [])]) = lookupKey ("priority".data) l := by
    intro l
    split
    · rfl
    · exact lookupKey_append_ne _ _ _ _ e1
  have keep3 : ∀ l : List (List Char × Json),
      lookupKey ("priority".data) (if hasKey ("created".data) l = true then l
        else l ++ [("created".data, Json.str now)]) = lookupKey ("priority".data) l := by
    intro l
    split
    · rfl
    · exact lookupKey_append_ne _ _ _ _ e2
  simp only [backfillFields]
  rw [keep3, keep2]
  by_cases h1 : hasKey ("priority".data) kvs
  · simp only [h1, if_true]
    obtain ⟨v, hv⟩ := lookupKey_exists_of_hasKey h1
    rw [hv]
    rfl
  · have hf := bool_eq_false_of_not h1
    simp only [hf, Bool.false_eq_true, if_false]
    rw [lookupKey_append_self _ _ _ hf, lookupKey_none_of_hasKey_false _ _ hf]
    rfl

theorem backfill_lookup_tags (now : List Char) (kvs : List (List Char × Json)) :
    lookupKey ("tags".data) (backfillFields now kvs) =
      some ((lookupKey ("tags".data) kvs).getD (Json.arr [])) := by
  have e1 : (("priority".data : List Char) == "tags".data) = false := by decide
  have e2 : (("created".data : List Char) == "tags".data) = false := by decide
  have keep1 : lookupKey ("tags".data) (if hasKey ("priority".data) kvs = true then kvs
      else kvs ++ [("priority".data, Json.num 2)]) = lookupKey ("tags".data) kvs := by
    split
    · rfl
    · exact lookupKey_append_ne _ _ _ _ e1
  have keep1h : hasKey ("tags".data) (if hasKey ("priority".data) kvs = true then kvs
      else kvs ++ [("priority".data, Json.num 2)]) = hasKey ("tags".data) kvs := by
    split
    · rfl
    · exact hasKey_append_ne _ _ _ _ e1
  have keep3 : ∀ l : List (List Char × Json),
      lookupKey ("tags".data) (if hasKey ("created".data) l = true then l
        else l ++ [("created".data, Json.str now)]) = lookupKey ("tags".data) l := by
    intro l
    split
    · rfl
    · exact lookupKey_append_ne _ _ _ _ e2
  simp only [backfillFields]
  rw [keep3, keep1h]
  by_cases h2 : hasKey ("tags".data) kvs
  · simp only [h2, if_true]
    rw [keep1]
    obtain ⟨v, hv⟩ := lookupKey_exists_of_hasKey h2
    rw [hv]
    rfl
  · have hf := bool_eq_false_of_not h2
    simp only [hf, Bool.false_eq_true, if_false]
    rw [lookupKey_append, lookupKey_single]
    simp only [BEq.refl, if_true]
    rw [keep1, lookupKey_none_of_hasKey_false _ _ hf]
    rfl

theorem backfill_lookup_created (now : List Char) (kvs : List (List Char × Json)) :
    lookupKey ("created".data) (backfillFields now kvs) =
      some ((lookupKey ("created".data) kvs).getD (Json.str now)) := by
  have e1 : (("priority".data : List Char) == "created".data) = false := by decide
  have e2 : (("tags".data : List Char) == "created".data) = false := by decide
  have keep1 : lookupKey ("created".data) (if hasKey ("priority".data) kvs = true then kvs
      else kvs ++ [("priority".data, Json.num 2)]) = lookupKey ("created".data) kvs := by
    split
    · rfl
    · exact lookupKey_append_ne _ _ _ _ e1
  have keep1h : hasKey ("created".data) (if hasKey ("priority".data) kvs = true then kvs
      else kvs ++ [("priority".data, Json.num 2)]) = hasKey ("created".data) kvs := by
    split
    · rfl
    · exact hasKey_append_ne _ _ _ _ e1
  have keep2 : ∀ l : List (List Char × Json),
      lookupKey ("created".data) (if hasKey ("tags".data) l = true then l
        else l ++ [("tags".data, Json.arr [])]) = lookupKey ("created".data) l := by
    intro l
    split
    · rfl
    · exact lookupKey_append_ne _ _ _ _ e2
  have keep2h : ∀ l : List (List Char × Json),
      hasKey ("created".data) (if hasKey ("tags".data) l = true then l
        else l ++ [("tags".data, Json.arr [])]) = hasKey ("created".data) l := by
    intro l
    split
    · rfl
    · exact hasKey_append_ne _ _ _ _ e2
  simp only [backfillFields]
  rw [keep2h, keep1h]
  by_cases h3 : hasKey ("created".data) kvs
  · simp only [h3, if_true]
    rw [keep2, keep1]
    obtain ⟨v, hv⟩ := lookupKey_exists_of_hasKey h3
    rw [hv]
    rfl
  · have hf := bool_eq_false_of_not h3
    simp only [hf, Bool.false_eq_true, if_false]
    rw [lookupKey_append, lookupKey_single]
    simp only [BEq.refl, if_true]
    rw [keep2, keep1, lookupKey_none_of_hasKey_false _ _ hf]
    rfl

theorem mapM_migrateElem_obj (now : List Char) (xs : List Json)
    (h : xs.all isObjB = true) :
    xs.mapM (migrateElem now) = Except.ok (xs.map (migrateObj now)) := by
  induction xs with
  | nil => rfl
  | cons x xs ih =>
    simp only [List.all_cons, Bool.and_eq_true] at h
    obtain ⟨hx, hxs⟩ := h
    cases x with
    | obj kvs =>
      rw [List.mapM_cons, ih hxs]
      rfl
    | null => simp [isObjB] at hx
    | bool b => simp [isObjB] at hx
    | num n => simp [isObjB] at hx
    | str s => simp [isObjB] at hx
    | arr es => simp [isObjB] at hx

set_option maxHeartbeats 1000000 in
/-- C8 counterexample: the file content 1 is well-formed JSON but not an
array of task objects; the claim requires load to report the error and
return an empty sequence, but the migration loop raises an uncaught
TypeError (only JSONDecodeError and KeyError are caught), which escapes
load_tasks. -/
theorem C8_counterexample :
    load_tasks (some (some (Json.num 1))) ("t".data) =
      ([], Except.error ("TypeError".data)) := rfl

/-- C8 amended: load reports a read error and returns an empty sequence
exactly when the file content is not well-formed JSON; for well-formed
content nothing is ever reported.  A structural error (well-formed JSON
that is not an array of objects) is not handled uniformly: the migration
loop raises an uncaught exception on some values (see the
counterexample) while returning others, such as the empty object or the
empty string, unchanged and unreported.  On an array of objects load
succeeds and back-fills each record in memory: the priority field
defaults to 2, tags to the empty array, and created to the current
timestamp, while present fields are kept. -/
theorem C8_load_reports_and_backfills (now : List Char) (xs : List Json)
    (kvs : List (List Char × Json)) (j : Json) (hobj : xs.all isObjB = true) :
    load_tasks none now = ([], Except.ok (Json.arr [])) ∧
    load_tasks (some none) now = ([Msg.errReadFile], Except.ok (Json.arr [])) ∧
    (load_tasks (some (some j)) now).1 = [] ∧
    load_tasks (some (some (Json.obj []))) now = ([], Except.ok (Json.obj [])) ∧
    load_tasks (some (some (Json.str []))) now = ([], Except.ok (Json.str [])) ∧
    load_tasks (some (some (Json.arr xs))) now =
      ([], Except.ok (Json.arr (xs.map (migrateObj now)))) ∧
    migrateElem now (Json.obj kvs) = Except.ok (Json.obj (backfillFields now kvs)) ∧
    lookupKey ("priority".data) (backfillFields now kvs) =
      some ((lookupKey ("priority".data) kvs).getD (Json.num 2)) ∧
    lookupKey ("tags".data) (backfillFields now kvs) =
      some ((lookupKey ("tags".data) kvs).getD (Json.arr [])) ∧
    lookupKey ("created".data) (backfillFields now kvs) =
      some ((lookupKey ("created".data) kvs).getD (Json.str now)) := by
  refine ⟨rfl, rfl, rfl, rfl, rfl, ?_, rfl, backfill_lookup_priority now kvs,
    backfill_lookup_tags now kvs, backfill_lookup_created now kvs⟩
  simp only [load_tasks, migrateTop, mapM_migrateElem_obj now xs hobj]
  rfl

set_option maxHeartbeats 1000000 in
/-- C8 witness: the theorem applied to a one-record array missing the
priority, tags and created fields, with the value 1 as the well-formed
content that is never reported. -/
theorem C8_witness :
    load_tasks none ("t".data) = ([], Except.ok (Json.arr [])) ∧
    load_tasks (some none) ("t".data) = ([Msg.errReadFile], Except.ok (Json.arr [])) ∧
    (load_tasks (some (some (Json.num 1))) ("t".data)).1 = [] ∧
    load_tasks (some (some (Json.obj []))) ("t".data) = ([], Except.ok (Json.obj [])) ∧
    load_tasks (some (some (Json.str []))) ("t".data) = ([], Except.ok (Json.str [])) ∧
    load_tasks (some (some (Json.arr [Json.obj [("desc".data, Json.str ("x".data))]]))) ("t".data) =
      ([], Except.ok (Json.arr ([Json.obj [("desc".data, Json.str ("x".data))]].map
        (migrateObj ("t".data))))) ∧
    migrateElem ("t".data) (Json.obj [("desc".data, Json.str ("x".data))]) =
      Except.ok (Json.obj (backfillFields ("t".data) [("desc".data, Json.str ("x".data))])) ∧
    lookupKey ("priority".data) (backfillFields ("t".data) [("desc".data, Json.str ("x".data))]) =
      some ((lookupKey ("priority".data) [("desc".data, Json.str ("x".data))]).getD (Json.num 2)) ∧
    lookupKey ("tags".data) (backfillFields ("t".data) [("desc".data, Json.str ("x".data))]) =
      some ((lookupKey ("tags".data) [("desc".data, Json.str ("x".data))]).getD (Json.arr [])) ∧
    lookupKey ("created".data) (backfillFields ("t".data) [("desc".data, Json.str ("x".data))]) =
      some ((lookupKey ("created".data) [("desc".data, Json.str ("x".data))]).getD
        (Json.str ("t".data))) :=
  C8_load_reports_and_backfills ("t".data) [Json.obj [("desc".data, Json.str ("x".data))]]
    [("desc".data, Json.str ("x".data))] (Json.num 1) (by decide)

theorem splitWsF_nil (fuel : Nat) : splitWsF fuel [] = [] := by
  cases fuel <;> rfl

theorem takeWhile_all (p : α → Bool) (l : List α) (h : ∀ c ∈ l, p c = true) :
    l.takeWhile p = l := by
  induction l with
  | nil => rfl
  | cons a l ih =>
    rw [List.takeWhile_cons, h a (List.mem_cons_self a l),
      ih fun c hc => h c (List.mem_cons_of_mem a hc)]
    simp

theorem dropWhile_all (p : α → Bool) (l : List α) (h : ∀ c ∈ l, p c = true) :
    l.dropWhile p = [] := by
  induction l with
  | nil => rfl
  | cons a l ih =>
    rw [List.dropWhile_cons_of_pos (h a (List.mem_cons_self a l)),
      ih fun c hc => h c (List.mem_cons_of_mem a hc)]

theorem takeWhile_append_stop (p : α → Bool) (l1 : List α) (b : α) (l2 : List α)
    (h1 : ∀ c ∈ l1, p c = true) (hb : p b = false) :
    (l1 ++ b :: l2).takeWhile p = l1 := by
  induction l1 with
  | nil => simp [List.takeWhile_cons, hb]
  | cons a l ih =>
    rw [List.cons_append, List.takeWhile_cons, h1 a (List.mem_cons_self a l),
      ih fun c hc => h1 c (List.mem_cons_of_mem a hc)]
    simp

theorem dropWhile_append_stop (p : α → Bool) (l1 : List α) (b : α) (l2 : List α)
    (h1 : ∀ c ∈ l1, p c = true) (hb : p b = false) :
    (l1 ++ b :: l2).dropWhile p = b :: l2 := by
  induction l1 with
  | nil => simp [List.dropWhile_cons, hb]
  | cons a l ih =>
    rw [List.cons_append, List.dropWhile_cons_of_pos (h1 a (List.mem_cons_self a l)),
      ih fun c hc => h1 c (List.mem_cons_of_mem a hc)]

theorem splitWsF_good (fuel : Nat) (s : List Char) (hf : s.length ≤ fuel) :
    ∀ w ∈ splitWsF fuel s, w ≠ [] ∧ ∀ c ∈ w, isSpaceB c = false := by
  induction fuel generalizing s with
  | zero =>
    cases s with
    | nil => intro w hw; simp [splitWsF] at hw
    | cons c cs => simp at hf
  | succ n ih =>
    cases s with
    | nil => intro w hw; simp [splitWsF] at hw
    | cons c cs =>
      simp only [List.length_cons, Nat.succ_le_succ_iff] at hf
      intro w hw
      simp only [splitWsF] at hw
      by_cases hc : isSpaceB c
      · rw [if_pos hc] at hw
        exact ih cs hf w hw
      · rw [if_neg hc] at hw
        rcases List.mem_cons.mp hw with hw | hw
        · subst hw
          refine ⟨by simp, ?_⟩
          intro x hx
          rcases List.mem_cons.mp hx with hx | hx
          · subst hx; exact Bool.eq_false_iff.mpr hc
          · have := List.mem_takeWhile_imp hx
            simpa using this
        · exact ih (cs.dropWhile (fun x => !isSpaceB x))
            (Nat.le_trans (List.dropWhile_sublist _).length_le hf) w hw

theorem splitWs_good (s : List Char) :
    ∀ w ∈ splitWs s, w ≠ [] ∧ ∀ c ∈ w, isSpaceB c = false :=
  splitWsF_good s.length s (Nat.le_refl _)

theorem splitWsF_joinSp (ws : List (List Char)) :
    ∀ fuel, (joinSp ws).length ≤ fuel →
    (∀ w ∈ ws, w ≠ [] ∧ ∀ c ∈ w, isSpaceB c = false) →
    splitWsF fuel (joinSp ws) = ws := by
  induction ws with
  | nil => intro fuel _ _; exact splitWsF_nil fuel
  | cons w ws ih =>
    intro fuel hfuel hgood
    obtain ⟨hw, hwc⟩ := hgood w (List.mem_cons_self w ws)
    obtain ⟨a, w1, rfl⟩ : ∃ a w1, w = a :: w1 := by
      cases w with
      | nil => exact absurd rfl hw
      | cons a w1 => exact ⟨a, w1, rfl⟩
    have ha : isSpaceB a = false := hwc a (List.mem_cons_self a w1)
    have hw1 : ∀ c ∈ w1, (fun x => !isSpaceB x) c = true := by
      intro c hc
      simp [hwc c (List.mem_cons_of_mem a hc)]
    cases ws with
    | nil =>
      have hfuel1 : 1 ≤ fuel := by
        have : (joinSp [a :: w1]).length = w1.length + 1 := by simp [joinSp]
        omega
      obtain ⟨f, rfl⟩ : ∃ f, fuel = f + 1 := ⟨fuel - 1, by omega⟩
      show splitWsF (f + 1) (a :: w1) = [a :: w1]
      simp only [splitWsF, ha, Bool.false_eq_true, if_false]
      rw [takeWhile_all _ w1 hw1, dropWhile_all _ w1 hw1, splitWsF_nil]
    | cons w2 ws2 =>
      have hJ : joinSp ((a :: w1) :: w2 :: ws2) =
          (a :: w1) ++ ' ' :: joinSp (w2 :: ws2) := rfl
      have hlen : (joinSp ((a :: w1) :: w2 :: ws2)).length =
          w1.length + 2 + (joinSp (w2 :: ws2)).length := by
        rw [hJ]; simp; omega
      obtain ⟨g, rfl⟩ : ∃ g, fuel = g + 2 := ⟨fuel - 2, by omega⟩
      rw [hJ]
      show splitWsF (g + 1 + 1) (a :: (w1 ++ ' ' :: joinSp (w2 :: ws2))) =
        (a :: w1) :: w2 :: ws2
      simp only [splitWsF, ha, Bool.false_eq_true, if_false]
      rw [takeWhile_append_stop _ w1 ' ' _ hw1 (by decide),
        dropWhile_append_stop _ w1 ' ' _ hw1 (by decide)]
      have hsp : isSpaceB ' ' = true := by decide
      simp only [splitWsF, hsp, if_true]
      rw [ih g (by omega) (fun u hu => hgood u (List.mem_cons_of_mem _ hu))]

theorem normalizeWs_idem (s : List Char) :
    normalizeWs (normalizeWs s) = normalizeWs s := by
  unfold normalizeWs splitWs
  rw [splitWsF_joinSp (splitWsF s.length s) _ (Nat.le_refl _)
    (splitWsF_good s.length s (Nat.le_refl _))]

theorem joinSp_head_nonspace (ws : List (List Char))
    (hgood : ∀ w ∈ ws, w ≠ [] ∧ ∀ c ∈ w, isSpaceB c = false) :
    joinSp ws = [] ∨ ∃ c t, joinSp ws = c :: t ∧ isSpaceB c = false := by
  cases ws with
  | nil => exact Or.inl rfl
  | cons w ws =>
    obtain ⟨hw, hwc⟩ := hgood w (List.mem_cons_self w ws)
    obtain ⟨a, w1, rfl⟩ : ∃ a w1, w = a :: w1 := by
      cases w with
      | nil => exact absurd rfl hw
      | cons a w1 => exact ⟨a, w1, rfl⟩
    have ha : isSpaceB a = false := hwc a (List.mem_cons_self a w1)
    cases ws with
    | nil => exact Or.inr ⟨a, w1, rfl, ha⟩
    | cons w2 ws2 => exact Or.inr ⟨a, w1 ++ ' ' :: joinSp (w2 :: ws2), rfl, ha⟩

theorem joinSp_rev_head_nonspace (ws : List (List Char))
    (hgood : ∀ w ∈ ws, w ≠ [] ∧ ∀ c ∈ w, isSpaceB c = false) :
    (joinSp ws).reverse = [] ∨
      ∃ c t, (joinSp ws).reverse = c :: t ∧ isSpaceB c = false := by
  induction ws with
  | nil => exact Or.inl rfl
  | cons w ws ih =>
    obtain ⟨hw, hwc⟩ := hgood w (List.mem_cons_self w ws)
    cases ws with
    | nil =>
      right
      have hne : w.reverse ≠ [] := by
        simpa using hw
      obtain ⟨c, t, hct⟩ : ∃ c t, w.reverse = c :: t := by
        cases hrev : w.reverse with
        | nil => exact absurd hrev hne
        | cons c t => exact ⟨c, t, rfl⟩
      refine ⟨c, t, hct, ?_⟩
      have hc : c ∈ w := by
        rw [← List.mem_reverse, hct]
        exact List.mem_cons_self c t
      exact hwc c hc
    | cons w2 ws2 =>
      right
      have hJ : joinSp (w :: w2 :: ws2) = w ++ ' ' :: joinSp (w2 :: ws2) := rfl
      rcases ih (fun u hu => hgood u (List.mem_cons_of_mem _ hu)) with hnil | ⟨c, t, hct, hc⟩
      · have : joinSp (w2 :: ws2) = [] := by
          have := congrArg List.reverse hnil
          simpa using this
        rcases joinSp_head_nonspace (w2 :: ws2)
            (fun u hu => hgood u (List.mem_cons_of_mem _ hu)) with h0 | ⟨c, t, hct, _⟩
        · obtain ⟨hw2, _⟩ := hgood w2 (List.mem_cons_of_mem _ (List.mem_cons_self w2 ws2))
          cases ws2 with
          | nil => exact absurd h0 (by simpa [joinSp] using hw2)
          | cons w3 ws3 =>
            exact absurd h0 (by
              simp only [joinSp]
              cases w2 with
              | nil => exact absurd rfl hw2
              | cons b bs => simp)
        · rw [this] at hct
          simp at hct
      · refine ⟨c, t ++ ' ' :: w.reverse, ?_, hc⟩
        rw [hJ, List.reverse_append, List.reverse_cons, hct]
        simp

theorem pyStrip_normalizeWs (s : List Char) :
    pyStrip (normalizeWs s) = normalizeWs s := by
  have hgood := splitWs_good s
  have h1 := joinSp_head_nonspace (splitWs s) hgood
  have h2 := joinSp_rev_head_nonspace (splitWs s) hgood
  unfold pyStrip
  have e1 : (normalizeWs s).dropWhile isSpaceB = normalizeWs s := by
    rcases h1 with h | ⟨c, t, hct, hc⟩
    · simp [normalizeWs, h]
    · simp only [normalizeWs] at hct ⊢
      rw [hct, List.dropWhile_cons_of_neg (by simp [hc])]
  rw [e1]
  have e2 : (normalizeWs s).reverse.dropWhile isSpaceB = (normalizeWs s).reverse := by
    rcases h2 with h | ⟨c, t, hct, hc⟩
    · simp [normalizeWs] at h ⊢
      simp [h]
    · simp only [normalizeWs] at hct ⊢
      rw [hct, List.dropWhile_cons_of_neg (by simp [hc])]
  rw [e2, List.reverse_reverse]

theorem stripToksF_eq_self (m : Char) (fuel : Nat) (s : List Char)
    (h : searchTok m s = none) : stripToksF m fuel s = s := by
  induction fuel generalizing s with
  | zero => cases s <;> rfl
  | succ n ih =>
    cases s with
    | nil => rfl
    | cons c cs =>
      simp only [searchTok] at h
      split at h
      · simp at h
      · simp only [stripToksF]
        rw [if_neg (by assumption), ih cs h]

theorem findToksF_eq_nil (m : Char) (fuel : Nat) (s : List Char)
    (h : searchTok m s = none) : findToksF m fuel s = [] := by
  induction fuel generalizing s with
  | zero => cases s <;> rfl
  | succ n ih =>
    cases s with
    | nil => rfl
    | cons c cs =>
      simp only [searchTok] at h
      split at h
      · simp at h
      · rename_i hcond
        simp only [findToksF]
        by_cases hc : c = m
        · have hw : cs.takeWhile wordCharB = [] := by
            by_contra hne
            exact hcond ⟨hc, hne⟩
          rw [if_pos hc]
          simp only [hw, if_pos rfl]
          exact ih cs h
        · rw [if_neg hc]
          exact ih cs h

theorem parse_desc_shape (d c : List Char)
    (h : (parse_tags_and_priority d).desc = some c) :
    (∃ x, c = normalizeWs x) ∧ c ≠ [] := by
  simp only [parse_tags_and_priority] at h
  cases hS : searchTok '@' (pyStrip (stripToks '#' d)) <;> rw [hS] at h <;> split at h
  · contradiction
  · split at h
    · simp at h
    · rename_i hcond
      simp only [ParseOut.desc, Option.some.injEq] at h
      rw [h] at hcond
      exact ⟨⟨_, h.symm⟩, hcond⟩
  · split at h
    · simp at h
    · rename_i hcond
      simp only [ParseOut.desc, Option.some.injEq] at h
      rw [h] at hcond
      exact ⟨⟨_, h.symm⟩, hcond⟩
  · contradiction

set_option maxHeartbeats 1000000 in
/-- C9 counterexample: parse("#@low x") succeeds with cleaned description
"#x" (the tag scan sees no #word token because '#' is followed by '@',
but stripping "@low " fuses '#' with 'x'); re-parsing "#x" extracts the
tag "x" and fails with an empty description, instead of returning the
same description with no tags. -/
theorem C9_counterexample :
    (parse_tags_and_priority ("#@low x".data)).desc = some ("#x".data) ∧
    (parse_tags_and_priority ("#x".data)).desc = none :=
  ⟨rfl, rfl⟩

/-- C9 amended: re-parsing the cleaned description returned by a
successful parse yields the same description, no tags, priority 2 and no
messages, provided the cleaned description contains no leftover
marker-plus-word-characters token ('#'-word or '@'-word); stripping can
leave or create such tokens, in which case re-parsing may extract
further tags or even fail. -/
theorem C9_idempotent_when_token_free (d c : List Char)
    (h : (parse_tags_and_priority d).desc = some c)
    (h1 : noTokB '#' c = true) (h2 : noTokB '@' c = true) :
    parse_tags_and_priority c = ⟨some c, [], 2, []⟩ := by
  obtain ⟨⟨x, rfl⟩, hne⟩ := parse_desc_shape d c h
  have hs1 : searchTok '#' (normalizeWs x) = none := by
    simpa [noTokB, Option.isNone_iff_eq_none] using h1
  have hs2 : searchTok '@' (normalizeWs x) = none := by
    simpa [noTokB, Option.isNone_iff_eq_none] using h2
  have hf : findToks '#' (normalizeWs x) = [] := findToksF_eq_nil _ _ _ hs1
  have hst : stripToks '#' (normalizeWs x) = normalizeWs x :=
    stripToksF_eq_self _ _ _ hs1
  have hps : pyStrip (normalizeWs x) = normalizeWs x := pyStrip_normalizeWs x
  have hni : normalizeWs (normalizeWs x) = normalizeWs x := normalizeWs_idem x
  simp only [parse_tags_and_priority, hf, hst, hps, hs2, hni, if_neg hne]

/-- C9 witness: the theorem applied to the token-free input
"hello world". -/
theorem C9_witness :
    parse_tags_and_priority ("hello world".data) =
      ⟨some ("hello world".data), [], 2, []⟩ :=
  C9_idempotent_when_token_free ("hello world".data) ("hello world".data) rfl rfl rfl

theorem priorityLookup_range (t : List Char) (p : Nat)
    (h : priorityLookup t = some p) : 1 ≤ p ∧ p ≤ 4 := by
  simp only [priorityLookup, PRIORITIES, List.lookup_cons, List.lookup_nil] at h
  repeat' split at h
  all_goals first
    | (simp only [Option.some.injEq] at h; omega)
    | simp at h

theorem parse_priority_range (d : List Char) :
    1 ≤ (parse_tags_and_priority d).priority ∧
      (parse_tags_and_priority d).priority ≤ 4 := by
  simp only [parse_tags_and_priority]
  cases hS : searchTok '@' (pyStrip (stripToks '#' d))
  · split
    · contradiction
    · split <;> simp
  · split
    · rename_i tok heq
      cases hL : priorityLookup (lowerTok tok) with
      | none => split <;> simp
      | some lvl =>
        have hr := priorityLookup_range _ _ hL
        split <;> simp <;> omega
    · contradiction

theorem findToksF_wordChars (m : Char) (fuel : Nat) (s : List Char) :
    ∀ tg ∈ findToksF m fuel s, ∀ c ∈ tg, wordCharB c = true := by
  induction fuel generalizing s with
  | zero => cases s <;> intro tg htg <;> simp [findToksF] at htg
  | succ n ih =>
    cases s with
    | nil => intro tg htg; simp [findToksF] at htg
    | cons c cs =>
      intro tg htg
      simp only [findToksF] at htg
      by_cases hc : c = m
      · rw [if_pos hc] at htg
        by_cases hw : cs.takeWhile wordCharB = []
        · simp only [hw, if_pos rfl] at htg
          exact ih cs tg htg
        · simp only [hw, if_neg hw] at htg
          rcases List.mem_cons.mp htg with rfl | htg
          · intro x hx
            exact List.mem_takeWhile_imp hx
          · exact ih _ tg htg
      · rw [if_neg hc] at htg
        exact ih cs tg htg

theorem noHash_of_wordChars (tg : List Char)
    (h : ∀ c ∈ tg, wordCharB c = true) : noHashB tg = true := by
  simp only [noHashB, List.all_eq_true]
  intro c hc
  have hw := h c hc
  have : c ≠ '#' := by
    intro rfl_eq
    rw [rfl_eq] at hw
    simp [wordCharB] at hw
  simpa using this

theorem parse_tags_noHash (d : List Char) :
    ∀ tg ∈ (parse_tags_and_priority d).tags, noHashB tg = true := by
  have hall : ∀ tg ∈ findToks '#' d, noHashB tg = true := by
    intro tg htg
    exact noHash_of_wordChars tg (findToksF_wordChars '#' d.length d tg htg)
  simp only [parse_tags_and_priority]
  cases hS : searchTok '@' (pyStrip (stripToks '#' d))
  · split
    · contradiction
    · split
      · intro tg htg; simp at htg
      · intro tg htg; exact hall tg (by simpa using htg)
  · split
    · split
      · intro tg htg; simp at htg
      · intro tg htg; exact hall tg (by simpa using htg)
    · contradiction

theorem nonBlank_of_parse (d c : List Char)
    (h : (parse_tags_and_priority d).desc = some c) : nonBlankB c = true := by
  obtain ⟨⟨x, rfl⟩, hne⟩ := parse_desc_shape d c h
  rcases joinSp_head_nonspace (splitWs x) (splitWs_good x) with h0 | ⟨ch, t, hct, hc⟩
  · exact absurd h0 hne
  · show nonBlankB (joinSp (splitWs x)) = true
    rw [hct]
    simp [nonBlankB, hc]

theorem storeAllValid_mem {l : List Task} (h : storeAllValidB l = true) :
    ∀ t ∈ l, validTaskB t = true := by
  simpa [storeAllValidB, List.all_eq_true] using h

theorem storeAllValid_of_mem {l : List Task}
    (h : ∀ t ∈ l, validTaskB t = true) : storeAllValidB l = true := by
  simpa [storeAllValidB, List.all_eq_true] using h

theorem storeAllValid_set {l : List Task} {n : Nat} {t : Task}
    (hl : storeAllValidB l = true) (ht : validTaskB t = true) :
    storeAllValidB (l.set n t) = true := by
  refine storeAllValid_of_mem fun u hu => ?_
  rcases List.mem_or_eq_of_mem_set hu with h | rfl
  · exact storeAllValid_mem hl u h
  · exact ht

theorem storeAllValid_sublist {l1 l2 : List Task} (hs : List.Sublist l1 l2)
    (h : storeAllValidB l2 = true) : storeAllValidB l1 = true :=
  storeAllValid_of_mem fun u hu => storeAllValid_mem h u (hs.subset hu)

theorem validTask_getD {store : List Task} {n : Nat}
    (h : storeAllValidB store = true) (hn : n < store.length) :
    validTaskB (store.getD n default) = true := by
  have e : store.getD n default = store[n] := by
    simp [List.getD_eq_getElem?_getD, List.getElem?_eq_getElem hn]
  rw [e]
  exact storeAllValid_mem h _ (List.getElem_mem hn)

theorem validTask_mk {d0 : List Char} {dn : Bool} {p0 : Nat}
    {tg0 : List (List Char)} {cr0 : List Char}
    (hd : nonBlankB d0 = true) (hp1 : 1 ≤ p0) (hp2 : p0 ≤ 4)
    (ht : ∀ tg ∈ tg0, noHashB tg = true) :
    validTaskB ⟨d0, dn, p0, tg0, cr0⟩ = true := by
  simp only [validTaskB, Bool.and_eq_true, List.all_eq_true]
  exact ⟨⟨⟨hd, by simpa using hp1⟩, by simpa using hp2⟩, ht⟩

theorem validTask_fields {t : Task} (h : validTaskB t = true) :
    nonBlankB t.desc = true ∧ 1 ≤ t.priority ∧ t.priority ≤ 4 ∧
      ∀ tg ∈ t.tags, noHashB tg = true := by
  simp only [validTaskB, Bool.and_eq_true, List.all_eq_true] at h
  obtain ⟨⟨⟨hd, hp1⟩, hp2⟩, ht⟩ := h
  exact ⟨hd, by simpa using hp1, by simpa using hp2, ht⟩

theorem add_task_prio_ok (d : List Char) (p : Option (List Char)) :
    1 ≤ (match p with
      | some pp => (priorityLookup (lowerTok pp)).getD (parse_tags_and_priority d).priority
      | none => (parse_tags_and_priority d).priority) ∧
    (match p with
      | some pp => (priorityLookup (lowerTok pp)).getD (parse_tags_and_priority d).priority
      | none => (parse_tags_and_priority d).priority) ≤ 4 := by
  cases p with
  | none => exact parse_priority_range d
  | some pp =>
    have hred : (match some pp with
        | some q => (priorityLookup (lowerTok q)).getD (parse_tags_and_priority d).priority
        | none => (parse_tags_and_priority d).priority) =
        (priorityLookup (lowerTok pp)).getD (parse_tags_and_priority d).priority := rfl
    rw [hred]
    cases hL : priorityLookup (lowerTok pp) with
    | none => simpa using parse_priority_range d
    | some lvl => simpa using priorityLookup_range _ _ hL

theorem add_task_tags_ok (d : List Char) (ts : Option (List (List Char)))
    (hts : optTagsOkB ts = true) :
    ∀ tg ∈ (match ts with
      | some l => if l = [] then (parse_tags_and_priority d).tags else l
      | none => (parse_tags_and_priority d).tags), noHashB tg = true := by
  cases ts with
  | none => exact parse_tags_noHash d
  | some l =>
    by_cases hl : l = []
    · simpa [hl] using parse_tags_noHash d
    · simp only [if_neg hl]
      simpa [optTagsOkB, List.all_eq_true] using hts

theorem add_task_preserves_valid (d : List Char) (p : Option (List Char))
    (ts : Option (List (List Char))) (now : List Char) (store : List Task)
    (hstore : storeAllValidB store = true) (hts : optTagsOkB ts = true) :
    storeAllValidB (add_task d p ts now store).1 = true := by
  simp only [add_task]
  cases hD : (parse_tags_and_priority d).desc with
  | none => exact hstore
  | some nd =>
    refine storeAllValid_of_mem fun u hu => ?_
    rcases List.mem_append.mp hu with h | h
    · exact storeAllValid_mem hstore u h
    · rw [List.mem_singleton] at h
      rw [h]
      exact validTask_mk (nonBlank_of_parse d nd hD) (add_task_prio_ok d p).1
        (add_task_prio_ok d p).2 (add_task_tags_ok d ts hts)

theorem validTask_done_update {t : Task} {b : Bool} :
    validTaskB { t with done := b } = validTaskB t := by
  cases t
  simp [validTaskB]

theorem mark_done_preserves_valid (i : Int) (store : List Task)
    (hstore : storeAllValidB store = true) :
    storeAllValidB (mark_done i store).1 = true := by
  by_cases hidx : 1 ≤ i ∧ i ≤ (store.length : Int)
  · rw [mark_done_store_eq i store hidx]
    have hlt : (i - 1).toNat < store.length := by omega
    exact storeAllValid_set hstore
      (validTask_done_update.trans (validTask_getD hstore hlt) :
        validTaskB { store.getD (i - 1).toNat default with done := true } = true)
  · simp only [mark_done, if_neg hidx]
    exact hstore

theorem mark_undone_preserves_valid (i : Int) (store : List Task)
    (hstore : storeAllValidB store = true) :
    storeAllValidB (mark_undone i store).1 = true := by
  by_cases hidx : 1 ≤ i ∧ i ≤ (store.length : Int)
  · rw [mark_undone_store_eq i store hidx]
    have hlt : (i - 1).toNat < store.length := by omega
    exact storeAllValid_set hstore
      (validTask_done_update.trans (validTask_getD hstore hlt) :
        validTaskB { store.getD (i - 1).toNat default with done := false } = true)
  · simp only [mark_undone, if_neg hidx]
    exact hstore

theorem delete_task_preserves_valid (i : Int) (store : List Task)
    (hstore : storeAllValidB store = true) :
    storeAllValidB (delete_task i store).1 = true := by
  by_cases hidx : 1 ≤ i ∧ i ≤ (store.length : Int)
  · simp only [delete_task, if_pos hidx]
    exact storeAllValid_sublist (List.eraseIdx_sublist store (i - 1).toNat) hstore
  · simp only [delete_task, if_neg hidx]
    exact hstore

theorem clear_done_preserves_valid (store : List Task)
    (hstore : storeAllValidB store = true) :
    storeAllValidB (clear_done store).1 = true := by
  simp only [clear_done]
  split
  · exact hstore
  · exact storeAllValid_sublist (List.filter_sublist store) hstore

theorem backfill_lookup_desc (now : List Char) (kvs : List (List Char × Json)) :
    lookupKey ("desc".data) (backfillFields now kvs) =
      lookupKey ("desc".data) kvs := by
  have e1 : (("priority".data : List Char) == "desc".data) = false := by decide
  have e2 : (("tags".data : List Char) == "desc".data) = false := by decide
  have e3 : (("created".data : List Char) == "desc".data) = false := by decide
  simp only [backfillFields]
  have keep3 : ∀ l : List (List Char × Json),
      lookupKey ("desc".data) (if hasKey ("created".data) l = true then l
        else l ++ [("created".data, Json.str now)]) = lookupKey ("desc".data) l := by
    intro l
    split
    · rfl
    · exact lookupKey_append_ne _ _ _ _ e3
  have keep2 : ∀ l : List (List Char × Json),
      lookupKey ("desc".data) (if hasKey ("tags".data) l = true then l
        else l ++ [("tags".data, Json.arr [])]) = lookupKey ("desc".data) l := by
    intro l
    split
    · rfl
    · exact lookupKey_append_ne _ _ _ _ e2
  rw [keep3, keep2]
  split
  · rfl
  · exact lookupKey_append_ne _ _ _ _ e1

theorem migrate_record_valid (now : List Char) (kvs : List (List Char × Json))
    (h : recWherePresentOkB kvs = true) :
    recValidB (backfillFields now kvs) = true := by
  simp only [recWherePresentOkB, Bool.and_eq_true] at h
  obtain ⟨⟨hd, hp⟩, ht⟩ := h
  have hpOK : fieldOkPriority (some ((lookupKey ("priority".data) kvs).getD
      (Json.num 2))) = true := by
    cases hP : lookupKey ("priority".data) kvs with
    | none => simp [fieldOkPriority]
    | some v =>
      rw [hP] at hp
      simpa [fieldOkPriority] using hp
  have htOK : fieldOkTags (some ((lookupKey ("tags".data) kvs).getD
      (Json.arr []))) = true := by
    cases hT : lookupKey ("tags".data) kvs with
    | none => simp [fieldOkTags]
    | some v =>
      rw [hT] at ht
      simpa [fieldOkTags] using ht
  unfold recValidB
  rw [backfill_lookup_desc, backfill_lookup_priority, backfill_lookup_tags]
  simp [hd, hpOK, htOK]

theorem migrate_record_valid_converse (now : List Char)
    (kvs : List (List Char × Json))
    (h : recValidB (backfillFields now kvs) = true) :
    recWherePresentOkB kvs = true := by
  unfold recValidB at h
  rw [backfill_lookup_desc, backfill_lookup_priority, backfill_lookup_tags] at h
  simp only [Bool.and_eq_true] at h
  obtain ⟨⟨hd, _, hp⟩, _, ht⟩ := h
  simp only [recWherePresentOkB, Bool.and_eq_true]
  refine ⟨⟨hd, ?_⟩, ?_⟩
  · cases hP : lookupKey ("priority".data) kvs with
    | none => simp [fieldOkPriority]
    | some v =>
      rw [hP] at hp
      simpa [fieldOkPriority] using hp
  · cases hT : lookupKey ("tags".data) kvs with
    | none => simp [fieldOkTags]
    | some v =>
      rw [hT] at ht
      simpa [fieldOkTags] using ht

/-- The migration of one loaded record establishes the claim C1
invariant exactly when the record's present desc/priority/tags fields
already satisfy it: the back-filled defaults are valid, and present
fields are stored unvalidated, so an invalid present field survives
migration. -/
theorem migrate_record_valid_iff (now : List Char)
    (kvs : List (List Char × Json)) :
    recValidB (backfillFields now kvs) = true ↔
      recWherePresentOkB kvs = true :=
  ⟨migrate_record_valid_converse now kvs, migrate_record_valid now kvs⟩

theorem upd_desc_step_valid (pg : Bool) (tags : Option (List (List Char)))
    (t0 : Task) (dval : List Char) (tc : Task × Nat)
    (h0 : validTaskB t0 = true)
    (h : (upd_desc_step pg tags t0 dval).1 = some tc) :
    validTaskB tc.1 = true := by
  obtain ⟨hnb0, hp01, hp02, ht0⟩ := validTask_fields h0
  simp only [upd_desc_step] at h
  by_cases hd : dval ≠ []
  · rw [if_pos hd] at h
    cases hD : (parse_tags_and_priority dval).desc with
    | none => simp [hD] at h
    | some nd =>
      simp only [hD] at h
      have hr := parse_priority_range dval
      have htg := parse_tags_noHash dval
      have hnb := nonBlank_of_parse dval nd hD
      repeat' split at h
      all_goals simp only [Option.some.injEq] at h
      all_goals subst h
      all_goals first
        | exact validTask_mk hnb hr.1 hr.2 htg
        | exact validTask_mk hnb hr.1 hr.2 ht0
        | exact validTask_mk hnb hp01 hp02 htg
        | exact validTask_mk hnb hp01 hp02 ht0
  · rw [if_neg hd] at h
    simp only [Option.some.injEq] at h
    subst h
    exact h0

theorem upd_prio_step_valid (pg : Bool) (pval : List Char) (tc : Task × Nat)
    (h : validTaskB tc.1 = true) :
    validTaskB (upd_prio_step pg pval tc).1 = true := by
  obtain ⟨t, c⟩ := tc
  have ht : validTaskB t = true := h
  simp only [upd_prio_step]
  by_cases hpg : pg = true
  · rw [if_pos hpg]
    cases hL : priorityLookup (lowerTok pval) with
    | none => exact ht
    | some lvl =>
      dsimp only
      by_cases hne : lvl ≠ t.priority
      · rw [if_pos hne]
        obtain ⟨hnb, _, _, htg⟩ := validTask_fields ht
        have hr := priorityLookup_range _ _ hL
        exact validTask_mk hnb hr.1 hr.2 htg
      · rw [if_neg hne]
        exact ht
  · rw [if_neg hpg]
    exact ht

theorem upd_tags_step_valid (tags : Option (List (List Char))) (tc : Task × Nat)
    (h : validTaskB tc.1 = true) (hts : optTagsOkB tags = true) :
    validTaskB (upd_tags_step tags tc).1 = true := by
  obtain ⟨t, c⟩ := tc
  have ht : validTaskB t = true := h
  simp only [upd_tags_step]
  cases tags with
  | none => exact ht
  | some l =>
    dsimp only
    by_cases hne : l ≠ t.tags
    · rw [if_pos hne]
      obtain ⟨hnb, hp1, hp2, _⟩ := validTask_fields ht
      refine validTask_mk hnb hp1 hp2 ?_
      simpa [optTagsOkB, List.all_eq_true] using hts
    · rw [if_neg hne]
      exact ht

theorem update_task_preserves_valid (i : Int) (d p : Option (List Char))
    (ts : Option (List (List Char))) (store : List Task)
    (hstore : storeAllValidB store = true) (hts : optTagsOkB ts = true) :
    storeAllValidB (update_task i d p ts store).1 = true := by
  by_cases hidx : 1 ≤ i ∧ i ≤ (store.length : Int)
  · simp only [update_task, if_pos hidx]
    have hlt : (i - 1).toNat < store.length := by omega
    have h0 : validTaskB (store.getD (i - 1).toNat default) = true :=
      validTask_getD hstore hlt
    generalize (match p with | some q => !q.isEmpty | none => false : Bool) = pg
    generalize (match p with | some q => q | none => [] : List Char) = pv
    generalize (match d with | some q => q | none => [] : List Char) = dv
    rcases hstep : upd_desc_step pg ts
        (store.getD (i - 1).toNat default) dv with ⟨_ | tc, m⟩
    · exact hstore
    · have hv3 : validTaskB tc.1 = true :=
        upd_desc_step_valid _ _ _ _ tc h0 (by rw [hstep])
      dsimp only
      rcases h5 : upd_tags_step ts (upd_prio_step pg pv tc) with ⟨t5, c5⟩
      have hv4 := upd_prio_step_valid pg pv tc hv3
      have hv5 := upd_tags_step_valid ts _ hv4 hts
      rw [h5] at hv5
      split
      · exact hstore
      · exact storeAllValid_set hstore hv5
  · simp only [update_task, if_neg hidx]
    exact hstore

set_option maxHeartbeats 1000000 in
/-- C1 counterexample: add with the explicitly supplied tag list
containing the string hash-x stores that tag verbatim, so the stored
task violates the no-hash-in-tags invariant. -/
theorem C1_counterexample :
    storeAllValidB (add_task ("hello".data) none (some ["#x".data]) ("t".data) []).1 =
      false := rfl

/-- C1 amended: provided every task already in the store satisfies the
invariant (description neither empty nor whitespace-only, priority in
1..4, no tag containing a hash) and every explicitly supplied tag is
hash-free, each of add, update, done, undone, delete and clear-completed
leaves a store whose tasks all satisfy the invariant; and load-migration
establishes the invariant on a record exactly when the record's present
desc/priority/tags fields already satisfy it (the back-filled defaults
do). -/
theorem C1_invariant_preserved (store : List Task) (d : List Char)
    (dopt : Option (List Char)) (p : Option (List Char))
    (ts : Option (List (List Char))) (now : List Char) (i : Int)
    (kvs : List (List Char × Json))
    (hstore : storeAllValidB store = true)
    (hts : optTagsOkB ts = true) :
    storeAllValidB (add_task d p ts now store).1 = true ∧
    storeAllValidB (update_task i dopt p ts store).1 = true ∧
    storeAllValidB (mark_done i store).1 = true ∧
    storeAllValidB (mark_undone i store).1 = true ∧
    storeAllValidB (delete_task i store).1 = true ∧
    storeAllValidB (clear_done store).1 = true ∧
    (recValidB (backfillFields now kvs) = true ↔
      recWherePresentOkB kvs = true) :=
  ⟨add_task_preserves_valid d p ts now store hstore hts,
   update_task_preserves_valid i dopt p ts store hstore hts,
   mark_done_preserves_valid i store hstore,
   mark_undone_preserves_valid i store hstore,
   delete_task_preserves_valid i store hstore,
   clear_done_preserves_valid store hstore,
   migrate_record_valid_iff now kvs⟩

set_option maxHeartbeats 1000000 in
/-- C1 witness: the theorem applied to a one-task valid store with a
parsed add, an update that changes description, priority and tags, and a
one-field record to migrate. -/
theorem C1_witness :
    storeAllValidB (add_task ("x #y @high".data) (some ("low".data))
      (some ["ok".data]) ("n".data) [⟨"a".data, false, 2, ["w".data], "t".data⟩]).1 = true ∧
    storeAllValidB (update_task 1 (some ("z @urgent #q".data)) (some ("low".data))
      (some ["ok".data]) [⟨"a".data, false, 2, ["w".data], "t".data⟩]).1 = true ∧
    storeAllValidB (mark_done 1 [⟨"a".data, false, 2, ["w".data], "t".data⟩]).1 = true ∧
    storeAllValidB (mark_undone 1 [⟨"a".data, false, 2, ["w".data], "t".data⟩]).1 = true ∧
    storeAllValidB (delete_task 1 [⟨"a".data, false, 2, ["w".data], "t".data⟩]).1 = true ∧
    storeAllValidB (clear_done [⟨"a".data, false, 2, ["w".data], "t".data⟩]).1 = true ∧
    (recValidB (backfillFields ("n".data) [("desc".data, Json.str ("x".data))]) = true ↔
      recWherePresentOkB [("desc".data, Json.str ("x".data))] = true) :=
  C1_invariant_preserved [⟨"a".data, false, 2, ["w".data], "t".data⟩]
    ("x #y @high".data) (some ("z @urgent #q".data)) (some ("low".data))
    (some ["ok".data]) ("n".data) 1 [("desc".data, Json.str ("x".data))]
    (by decide) (by decide)

end Devtodo
